import Mathlib

/-!
Verification development for the ProblemSetter ingestion and grading
pipeline (src/db_builder.py and src/streamlit-dashboard.py).

The embedding is shallow: the pure content of each Python function is
translated into an executable Lean definition.  External collaborators
are modelled as explicit inputs:

* the pdfgrep scan of `get_exercise_pages` is an input list of match
  lines, one `(page, matchedText)` pair per line of pdfgrep output;
* the AI extraction service is an input function
  `X : Nat → Option (List RawExercise)` — `none` models a response that
  fails to parse as JSON (`json.loads` raising inside
  `extract_exercises`), `some rs` a parsed list of exercise records;
* the AI grading service response is an input `Option GradeJson` —
  `none` models a response that fails to parse as the expected JSON
  object (including missing keys);
* the `toc` module (not part of the two source files) is modelled from
  the spec: it yields a list of `Heading` records with title, page
  anchor and level, which `enrich_with_toc` then sorts and enriches;
* raising an exception is modelled with `Except`; the sqlite store is a
  list of rows threaded through the functions.
-/

namespace PS

/-- A table-of-contents entry.  Modelled from the spec: the external
`toc` module (`toc.pdf_to_toc` / `toc.get_headings`, absent from the
source tree) produces heading records with `title`, 1-based `page`
anchor and nesting `level` (0 = top-level chapter, 1 = subsection). -/
structure Heading where
  title : String
  page : Nat
  level : Nat
deriving DecidableEq

/-- A heading row after `enrich_with_toc` has added the `chapter`
column; pandas `NA` is modelled as `none`. -/
structure CHeading where
  title : String
  page : Nat
  level : Nat
  chapter : Option String
deriving DecidableEq

/-- A raw exercise record parsed from the AI extraction response
(`number`, `text`, `has_figure`, `tags`). -/
structure RawExercise where
  number : Int
  text : String
  has_figure : Bool
  tags : List String
deriving DecidableEq

/-- A row of the `exercises` table. -/
structure ExRow where
  reference : String
  chapter : Option String
  page : Nat
  number : Int
  text : String
  has_figure : Bool
  tags : String
  created_on : String
deriving DecidableEq

/-- A row of the `attempts` table. -/
structure AttemptRow where
  reference : String
  page : Nat
  number : Int
  solution : String
  is_solution_correct : Bool
  solution_feedback : String
  attempted_on : String
deriving DecidableEq

/-- The parsed JSON object expected from a grading response. -/
structure GradeJson where
  solution_text : String
  is_solution_correct : Bool
  feedback : String
deriving DecidableEq

/-- SQLite `LIKE` matching (ASCII case-insensitive, `%` and `_`
wildcards), as used by the `reference LIKE '...'` filter of the
already-ingested-pages query in `process_document`. -/
def sqlLike : List Char → List Char → Bool
  | [], s => s.isEmpty
  | c :: ps, s =>
    if c == '%' then s.tails.any (fun t => sqlLike ps t)
    else
      match s with
      | [] => false
      | d :: t => (c == '_' || c.toLower == d.toLower) && sqlLike ps t

/-- `get_exercise_pages` (db_builder.py): one page number per pdfgrep
match line (`int(line.split(':')[0])`); no deduplication happens. -/
def get_exercise_pages (mlines : List (Nat × String)) : List Nat :=
  mlines.map (fun m => m.1)

/-- The candidate page list of `process_document`
(streamlit-dashboard.py): the pdfgrep marker pages, or all pages
`1..numPages` when no marker line was found. -/
def selectPages (numPages : Nat) (mlines : List (Nat × String)) : List Nat :=
  let pages := get_exercise_pages mlines
  if pages.isEmpty then (List.range numPages).map (fun i => i + 1) else pages

/-- The query `SELECT reference, page FROM exercises WHERE page IN
(pages) AND reference LIKE 'ref'` followed by `.page.unique()`, tested
at one candidate page `p`: a stored row for page `p` whose reference
fits the LIKE pattern exists.  (The `IN` clause is absorbed: the
test is only ever applied to members of the candidate page list.) -/
def existsStored (store : List ExRow) (ref : String) (p : Nat) : Bool :=
  store.any (fun row => row.page == p && sqlLike ref.toList row.reference.toList)

/-- `headings.sort_values(by='page')`: sort the heading rows by page
(ties keep a fixed deterministic order; the embedding uses a stable
insertion sort). -/
def sortHeadings (hs : List Heading) : List Heading :=
  List.insertionSort (fun a b => a.page ≤ b.page) hs

/-- The `chapter` column of `enrich_with_toc`: `title` for level-0
rows, pandas `NA` otherwise, then forward-filled down the sorted
sequence. -/
def propagateChapters : List Heading → Option String → List CHeading
  | [], _ => []
  | h :: t, cur =>
    let c := if h.level == 0 then some h.title else cur
    ⟨h.title, h.page, h.level, c⟩ :: propagateChapters t c

/-- Building the headings frame in `enrich_with_toc`: with an empty
heading list the frame has no `page` column and
`sort_values(by='page')` raises `KeyError`. -/
def buildHeadingIndex (hs : List Heading) : Except String (List CHeading) :=
  if hs.isEmpty then Except.error "KeyError"
  else Except.ok (propagateChapters (sortHeadings hs) none)

/-- The maximum page over a heading selection (0 when empty; only used
on nonempty selections). -/
def maxPageOf (cands : List CHeading) : Nat :=
  (cands.map (fun h => h.page)).foldl max 0

/-- `headings.loc[headings.page[headings.page < e.page].idxmax()]`:
pandas `idxmax` returns the label of the FIRST row attaining the
maximal page among pages `< P`; on an empty selection it raises
`ValueError`, modelled as `none`. -/
def chooseSection (chs : List CHeading) (P : Nat) : Option CHeading :=
  let cands := chs.filter (fun h => h.page < P)
  cands.find? (fun h => h.page == maxPageOf cands)

/-- `headings[headings.chapter == section.chapter].title.values`: the
titles of the headings whose chapter equals `c`, in sorted heading
order; a pandas `NA` on either side compares false. -/
def chapterTitles (chs : List CHeading) (c : Option String) : List String :=
  (chs.filter (fun h =>
    match c, h.chapter with
    | some a, some b => a == b
    | _, _ => false)).map (fun h => h.title)

/-- One iteration of the exercise loop of `enrich_with_toc`: pick the
section by `idxmax` (raising when no heading page precedes `P`), assign
its chapter, and append the comma-joined titles of its chapter's
headings after the existing comma-joined tags. -/
def enrichExercise (chs : List CHeading) (P : Nat) (tags : String) :
    Except String (Option String × String) :=
  match chooseSection chs P with
  | none => Except.error "ValueError"
  | some sec =>
    Except.ok (sec.chapter,
      tags ++ "," ++ String.intercalate "," (chapterTitles chs sec.chapter))

/-- Stamping one stored exercise row: reference, enriched chapter,
page, the AI-reported fields, enriched tags and the ingestion date. -/
def exRowOf (ref : String) (p : Nat) (date : String) (r : RawExercise)
    (c : Option String) (tags : String) : ExRow :=
  ⟨ref, c, p, r.number, r.text, r.has_figure, tags, date⟩

/-- The exercise loop of `enrich_with_toc` over one page's batch: each
raw exercise (tags already comma-joined by `ex_df.tags.map(','.join)`)
is enriched in order; the first raised error aborts the batch before
anything is saved. -/
def enrichRows (chs : List CHeading) (ref : String) (p : Nat) (date : String) :
    List RawExercise → Except String (List ExRow)
  | [] => Except.ok []
  | r :: rs =>
    match enrichExercise chs p (String.intercalate "," r.tags) with
    | Except.error e => Except.error e
    | Except.ok (c, tgs) =>
      match enrichRows chs ref p date rs with
      | Except.error e => Except.error e
      | Except.ok rows => Except.ok (exRowOf ref p date r c tgs :: rows)

/-- `enrich_with_toc` applied to one page's batch: build the heading
index (raising on an empty heading list), then enrich every exercise
of the batch. -/
def enrich_with_toc (hs : List Heading) (ref : String) (p : Nat) (date : String)
    (raws : List RawExercise) : Except String (List ExRow) :=
  match buildHeadingIndex hs with
  | Except.error e => Except.error e
  | Except.ok chs => enrichRows chs ref p date raws

/-- `extract_exercises` (db_builder.py): a response that fails to parse
as JSON is caught and turned into an empty exercise list. -/
def extract_exercises (X : Nat → Option (List RawExercise)) (p : Nat) :
    List RawExercise :=
  (X p).getD []

/-- `save_exercises` (db_builder.py): bulk `INSERT` of one page's
batch — append-only. -/
def save_exercises (store : List ExRow) (rows : List ExRow) : List ExRow :=
  store ++ rows

/-- The observable outcome of one `process_document` run: the store
after the run, the returned value (`none` models Python `None`, both
from the early no-new-pages return and from the exception handler), and
the pages on which the extractor was invoked. -/
structure RunResult where
  store : List ExRow
  count : Option Nat
  processed : List Nat
deriving DecidableEq

/-- The per-page loop of `process_document`: extract, skip an empty
batch, enrich and save a nonempty one; an exception raised by the
enrichment aborts the whole run (the pages saved so far stay
committed and Python returns `None`). -/
def processPages (hs : List Heading) (X : Nat → Option (List RawExercise))
    (ref date : String) :
    List Nat → List ExRow → Nat → List Nat → RunResult
  | [], store, n, pr => ⟨store, some n, pr⟩
  | p :: ps, store, n, pr =>
    let raws := extract_exercises X p
    if raws.isEmpty then processPages hs X ref date ps store n (pr ++ [p])
    else
      match enrich_with_toc hs ref p date raws with
      | Except.error _ => ⟨store, none, pr ++ [p]⟩
      | Except.ok rows =>
        processPages hs X ref date ps (save_exercises store rows)
          (n + rows.length) (pr ++ [p])

/-- `process_document` (streamlit-dashboard.py): select candidate
pages, drop the pages already stored for a LIKE-matching reference,
return `None` when no page remains (also when the candidate list is
empty: the `IN ()` query raises and the exception handler returns
`None`), else run the per-page loop. -/
def process_document (numPages : Nat) (mlines : List (Nat × String))
    (hs : List Heading) (X : Nat → Option (List RawExercise))
    (ref date : String) (store : List ExRow) : RunResult :=
  if (selectPages numPages mlines).isEmpty then ⟨store, none, []⟩
  else
    if ((selectPages numPages mlines).filter
        (fun p => ! existsStored store ref p)).isEmpty then ⟨store, none, []⟩
    else processPages hs X ref date
      ((selectPages numPages mlines).filter
        (fun p => ! existsStored store ref p)) store 0 []

/-- `extract_solution` (db_builder.py): the grading response must
parse as the expected JSON object with the three keys; `json.loads`
failure or a missing key raises, which is not caught inside
`extract_solution`. -/
def extract_solution (resp : Option GradeJson) :
    Except String (String × Bool × String) :=
  match resp with
  | none => Except.error "JSONDecodeError"
  | some g => Except.ok (g.solution_text, g.is_solution_correct, g.feedback)

/-- The grading round trip of `solutions_page`
(streamlit-dashboard.py): `extract_solution` runs inside a `try` whose
body only reaches the attempts `INSERT` after a successful return; on
an exception the handler shows the error and no row is written. -/
def solutions_page_submit (resp : Option GradeJson) (ref : String) (page : Nat)
    (number : Int) (date : String) (attempts : List AttemptRow) :
    List AttemptRow × Option (String × Bool × String) :=
  match extract_solution resp with
  | Except.error _ => (attempts, none)
  | Except.ok (t, c, f) =>
    (attempts ++ [⟨ref, page, number, t, c, f, date⟩], some (t, c, f))

/-- The `LEFT JOIN attempts` of `get_exercises`
(streamlit-dashboard.py), restricted to one exercise row's group: the
attempts sharing the exercise's (reference, page, number) key. -/
def joinedAttempts (attempts : List AttemptRow) (e : ExRow) : List AttemptRow :=
  attempts.filter (fun a =>
    a.reference == e.reference && a.page == e.page && a.number == e.number)

/-- `MAX(a.is_solution_correct)` over the group: SQL `MAX` is `NULL`
(modelled `none`) when the left join matched no attempt row, else the
maximum of the stored booleans. -/
def is_solved_agg (attempts : List AttemptRow) (e : ExRow) : Option Bool :=
  match joinedAttempts attempts e with
  | [] => none
  | l => some (l.any (fun a => a.is_solution_correct))

/-- `get_exercises` with `attempt_status=['incorrect']` and no other
filter: the `HAVING MAX(a.is_solution_correct) = 0` clause keeps a
group only when the aggregate is a non-`NULL` 0. -/
def get_exercises_incorrect (exercises : List ExRow)
    (attempts : List AttemptRow) : List ExRow :=
  exercises.filter (fun e => is_solved_agg attempts e == some false)

/-- Stated from the claim's words, for comparison with
`chooseSection`: the chapter of the LAST heading in the sorted
sequence among those with maximal page below `P`. -/
def claimLastMaxSection (chs : List CHeading) (P : Nat) : Option CHeading :=
  let cands := chs.filter (fun h => h.page < P)
  (cands.filter (fun h => h.page == maxPageOf cands)).getLast?

/-- A page on which the run raises inside `enrich_with_toc`: the
extracted batch is nonempty and the enrichment returns an error. -/
def pageAbortsB (hs : List Heading) (X : Nat → Option (List RawExercise))
    (ref date : String) (p : Nat) : Bool :=
  !(extract_exercises X p).isEmpty &&
    (match enrich_with_toc hs ref p date (extract_exercises X p) with
     | Except.error _ => true
     | Except.ok _ => false)

theorem sqlLike_refl (s : List Char) : sqlLike s s = true := by
  induction s with
  | nil => rfl
  | cons c t ih =>
    by_cases h : c == '%'
    · rw [sqlLike, if_pos h]
      exact List.any_eq_true.mpr ⟨t, (List.mem_tails t (c :: t)).mpr (List.suffix_cons c t), ih⟩
    · rw [sqlLike, if_neg h]
      simp [ih]

theorem enrichRows_ok_length (chs : List CHeading) (ref : String) (p : Nat)
    (date : String) (rs : List RawExercise) (rows : List ExRow)
    (h : enrichRows chs ref p date rs = Except.ok rows) :
    rows.length = rs.length := by
  induction rs generalizing rows with
  | nil =>
    rw [enrichRows] at h
    cases h
    rfl
  | cons r rs ih =>
    rw [enrichRows] at h
    cases he : enrichExercise chs p (String.intercalate "," r.tags) with
    | error e => rw [he] at h; cases h
    | ok ct =>
      rw [he] at h
      obtain ⟨c, tgs⟩ := ct
      cases hr : enrichRows chs ref p date rs with
      | error e => rw [hr] at h; cases h
      | ok rows2 =>
        rw [hr] at h
        cases h
        simp [ih rows2 hr]

theorem enrichRows_ok_mem (chs : List CHeading) (ref : String) (p : Nat)
    (date : String) (rs : List RawExercise) (rows : List ExRow)
    (h : enrichRows chs ref p date rs = Except.ok rows) :
    ∀ row ∈ rows, row.page = p ∧ row.reference = ref := by
  induction rs generalizing rows with
  | nil =>
    rw [enrichRows] at h
    cases h
    intro row hrow
    cases hrow
  | cons r rs ih =>
    rw [enrichRows] at h
    cases he : enrichExercise chs p (String.intercalate "," r.tags) with
    | error e => rw [he] at h; cases h
    | ok ct =>
      rw [he] at h
      obtain ⟨c, tgs⟩ := ct
      cases hr : enrichRows chs ref p date rs with
      | error e => rw [hr] at h; cases h
      | ok rows2 =>
        rw [hr] at h
        cases h
        intro row hrow
        rcases List.mem_cons.mp hrow with h1 | h2
        · subst h1; exact ⟨rfl, rfl⟩
        · exact ih rows2 hr row h2

theorem enrich_with_toc_ok_mem (hs : List Heading) (ref : String) (p : Nat)
    (date : String) (raws : List RawExercise) (rows : List ExRow)
    (h : enrich_with_toc hs ref p date raws = Except.ok rows) :
    ∀ row ∈ rows, row.page = p ∧ row.reference = ref := by
  rw [enrich_with_toc] at h
  cases hb : buildHeadingIndex hs with
  | error e => rw [hb] at h; cases h
  | ok chs => rw [hb] at h; exact enrichRows_ok_mem chs ref p date raws rows h

theorem enrich_with_toc_ok_length (hs : List Heading) (ref : String) (p : Nat)
    (date : String) (raws : List RawExercise) (rows : List ExRow)
    (h : enrich_with_toc hs ref p date raws = Except.ok rows) :
    rows.length = raws.length := by
  rw [enrich_with_toc] at h
  cases hb : buildHeadingIndex hs with
  | error e => rw [hb] at h; cases h
  | ok chs => rw [hb] at h; exact enrichRows_ok_length chs ref p date raws rows h

theorem existsStored_append_left (s t : List ExRow) (ref : String) (p : Nat)
    (h : existsStored s ref p = true) : existsStored (s ++ t) ref p = true := by
  rw [existsStored] at h ⊢
  rw [List.any_append, h, Bool.true_or]

theorem existsStored_append_elim (s t : List ExRow) (ref : String) (p : Nat)
    (h : existsStored (s ++ t) ref p = true) :
    existsStored s ref p = true ∨ ∃ row ∈ t, row.page = p := by
  rw [existsStored, List.any_append] at h
  rcases Bool.or_eq_true_iff.mp h with h1 | h2
  · exact Or.inl h1
  · rcases List.any_eq_true.mp h2 with ⟨row, hrow, hcond⟩
    rcases Bool.and_eq_true_iff.mp hcond with ⟨hp, _⟩
    exact Or.inr ⟨row, hrow, by simpa using hp⟩

theorem existsStored_of_saved (s rows : List ExRow) (ref : String) (p : Nat)
    (hne : rows ≠ []) (hmem : ∀ row ∈ rows, row.page = p ∧ row.reference = ref) :
    existsStored (s ++ rows) ref p = true := by
  rw [existsStored, List.any_append, Bool.or_eq_true_iff]
  right
  apply List.any_eq_true.mpr
  cases rows with
  | nil => exact absurd rfl hne
  | cons row rest =>
    refine ⟨row, List.mem_cons_self row rest, ?_⟩
    obtain ⟨hp, hr⟩ := hmem row (List.mem_cons_self row rest)
    rw [hp, hr, Bool.and_eq_true_iff]
    exact ⟨beq_self_eq_true p, sqlLike_refl ref.toList⟩

theorem processPages_cons (hs : List Heading) (X : Nat → Option (List RawExercise))
    (ref date : String) (p : Nat) (ps : List Nat) (store : List ExRow) (n : Nat)
    (pr : List Nat) :
    processPages hs X ref date (p :: ps) store n pr =
      if (extract_exercises X p).isEmpty
      then processPages hs X ref date ps store n (pr ++ [p])
      else
        match enrich_with_toc hs ref p date (extract_exercises X p) with
        | Except.error _ => ⟨store, none, pr ++ [p]⟩
        | Except.ok rows =>
          processPages hs X ref date ps (save_exercises store rows)
            (n + rows.length) (pr ++ [p]) := by
  rfl

theorem processPages_cons_empty (hs : List Heading)
    (X : Nat → Option (List RawExercise)) (ref date : String) (p : Nat)
    (ps : List Nat) (store : List ExRow) (n : Nat) (pr : List Nat)
    (h : extract_exercises X p = []) :
    processPages hs X ref date (p :: ps) store n pr =
      processPages hs X ref date ps store n (pr ++ [p]) := by
  rw [processPages_cons, h]
  rfl

theorem processPages_cons_abort (hs : List Heading)
    (X : Nat → Option (List RawExercise)) (ref date : String) (p : Nat)
    (ps : List Nat) (store : List ExRow) (n : Nat) (pr : List Nat) (err : String)
    (hne : extract_exercises X p ≠ [])
    (he : enrich_with_toc hs ref p date (extract_exercises X p) = Except.error err) :
    processPages hs X ref date (p :: ps) store n pr = ⟨store, none, pr ++ [p]⟩ := by
  rw [processPages_cons]
  cases hl : extract_exercises X p with
  | nil => exact absurd hl hne
  | cons a l =>
    rw [hl] at he
    rw [he]
    rfl

theorem processPages_cons_save (hs : List Heading)
    (X : Nat → Option (List RawExercise)) (ref date : String) (p : Nat)
    (ps : List Nat) (store : List ExRow) (n : Nat) (pr : List Nat)
    (rows : List ExRow) (hne : extract_exercises X p ≠ [])
    (he : enrich_with_toc hs ref p date (extract_exercises X p) = Except.ok rows) :
    processPages hs X ref date (p :: ps) store n pr =
      processPages hs X ref date ps (store ++ rows) (n + rows.length) (pr ++ [p]) := by
  rw [processPages_cons]
  cases hl : extract_exercises X p with
  | nil => exact absurd hl hne
  | cons a l =>
    rw [hl] at he
    rw [he]
    rfl

theorem processPages_store_append (hs : List Heading)
    (X : Nat → Option (List RawExercise)) (ref date : String) (l : List Nat)
    (store : List ExRow) (n : Nat) (pr : List Nat) :
    ∃ t, (processPages hs X ref date l store n pr).store = store ++ t := by
  induction l generalizing store n pr with
  | nil => exact ⟨[], by simp [processPages]⟩
  | cons p ps ih =>
    cases hl : extract_exercises X p with
    | nil =>
      rw [processPages_cons_empty hs X ref date p ps store n pr hl]
      exact ih store n (pr ++ [p])
    | cons a l2 =>
      have hne : extract_exercises X p ≠ [] := by rw [hl]; simp
      cases hw : enrich_with_toc hs ref p date (extract_exercises X p) with
      | error err =>
        rw [processPages_cons_abort hs X ref date p ps store n pr err hne hw]
        exact ⟨[], by simp⟩
      | ok rows =>
        rw [processPages_cons_save hs X ref date p ps store n pr rows hne hw]
        obtain ⟨t, ht⟩ := ih (store ++ rows) (n + rows.length) (pr ++ [p])
        exact ⟨rows ++ t, by rw [ht, List.append_assoc]⟩

theorem processPages_store_mem (hs : List Heading)
    (X : Nat → Option (List RawExercise)) (ref date : String) (l : List Nat)
    (store : List ExRow) (n : Nat) (pr : List Nat) (row : ExRow)
    (h : row ∈ (processPages hs X ref date l store n pr).store) :
    row ∈ store ∨ ∃ q ∈ l, row.page = q ∧ row.reference = ref ∧
      extract_exercises X q ≠ [] := by
  induction l generalizing store n pr with
  | nil =>
    simp only [processPages] at h
    exact Or.inl h
  | cons p ps ih =>
    cases hl : extract_exercises X p with
    | nil =>
      rw [processPages_cons_empty hs X ref date p ps store n pr hl] at h
      rcases ih store n (pr ++ [p]) h with h1 | ⟨q, hq, hrest⟩
      · exact Or.inl h1
      · exact Or.inr ⟨q, List.mem_cons_of_mem p hq, hrest⟩
    | cons a l2 =>
      have hne : extract_exercises X p ≠ [] := by rw [hl]; simp
      cases hw : enrich_with_toc hs ref p date (extract_exercises X p) with
      | error err =>
        rw [processPages_cons_abort hs X ref date p ps store n pr err hne hw] at h
        exact Or.inl h
      | ok rows =>
        rw [processPages_cons_save hs X ref date p ps store n pr rows hne hw] at h
        rcases ih (store ++ rows) (n + rows.length) (pr ++ [p]) h with h1 | ⟨q, hq, hrest⟩
        · rcases List.mem_append.mp h1 with h2 | h3
          · exact Or.inl h2
          · obtain ⟨hp, hr⟩ := enrich_with_toc_ok_mem hs ref p date
              (extract_exercises X p) rows hw row h3
            exact Or.inr ⟨p, List.mem_cons_self p ps, hp, hr, hne⟩
        · exact Or.inr ⟨q, List.mem_cons_of_mem p hq, hrest⟩

theorem processPages_processed_sub (hs : List Heading)
    (X : Nat → Option (List RawExercise)) (ref date : String) (l : List Nat)
    (store : List ExRow) (n : Nat) (pr : List Nat) (q : Nat)
    (h : q ∈ (processPages hs X ref date l store n pr).processed) :
    q ∈ pr ∨ q ∈ l := by
  induction l generalizing store n pr with
  | nil =>
    simp only [processPages] at h
    exact Or.inl h
  | cons p ps ih =>
    cases hl : extract_exercises X p with
    | nil =>
      rw [processPages_cons_empty hs X ref date p ps store n pr hl] at h
      rcases ih store n (pr ++ [p]) h with h1 | h2
      · rcases List.mem_append.mp h1 with h3 | h4
        · exact Or.inl h3
        · simp only [List.mem_singleton] at h4
          exact Or.inr (h4 ▸ List.mem_cons_self p ps)
      · exact Or.inr (List.mem_cons_of_mem p h2)
    | cons a l2 =>
      have hne : extract_exercises X p ≠ [] := by rw [hl]; simp
      cases hw : enrich_with_toc hs ref p date (extract_exercises X p) with
      | error err =>
        rw [processPages_cons_abort hs X ref date p ps store n pr err hne hw] at h
        rcases List.mem_append.mp h with h3 | h4
        · exact Or.inl h3
        · simp only [List.mem_singleton] at h4
          exact Or.inr (h4 ▸ List.mem_cons_self p ps)
      | ok rows =>
        rw [processPages_cons_save hs X ref date p ps store n pr rows hne hw] at h
        rcases ih (store ++ rows) (n + rows.length) (pr ++ [p]) h with h1 | h2
        · rcases List.mem_append.mp h1 with h3 | h4
          · exact Or.inl h3
          · simp only [List.mem_singleton] at h4
            exact Or.inr (h4 ▸ List.mem_cons_self p ps)
        · exact Or.inr (List.mem_cons_of_mem p h2)

theorem processPages_all_empty (hs : List Heading)
    (X : Nat → Option (List RawExercise)) (ref date : String) (l : List Nat)
    (store : List ExRow) (n : Nat) (pr : List Nat)
    (h : ∀ p ∈ l, extract_exercises X p = []) :
    processPages hs X ref date l store n pr = ⟨store, some n, pr ++ l⟩ := by
  induction l generalizing pr with
  | nil => simp [processPages]
  | cons p ps ih =>
    rw [processPages_cons_empty hs X ref date p ps store n pr
      (h p (List.mem_cons_self p ps))]
    rw [ih (pr ++ [p]) (fun q hq => h q (List.mem_cons_of_mem p hq))]
    simp

theorem processPages_abort_run (hs : List Heading)
    (X : Nat → Option (List RawExercise)) (ref date : String)
    (l1 : List Nat) (k : Nat) (l2 : List Nat) (store : List ExRow) (n : Nat)
    (pr : List Nat) (err : String)
    (h1 : ∀ p ∈ l1, extract_exercises X p = [])
    (hk : extract_exercises X k ≠ [])
    (he : enrich_with_toc hs ref k date (extract_exercises X k) = Except.error err) :
    (processPages hs X ref date (l1 ++ k :: l2) store n pr).store = store ∧
      (processPages hs X ref date (l1 ++ k :: l2) store n pr).count = none := by
  induction l1 generalizing pr with
  | nil =>
    rw [List.nil_append, processPages_cons_abort hs X ref date k l2 store n pr err hk he]
    exact ⟨rfl, rfl⟩
  | cons p ps ih =>
    rw [List.cons_append, processPages_cons_empty hs X ref date p (ps ++ k :: l2)
      store n pr (h1 p (List.mem_cons_self p ps))]
    exact ih (pr ++ [p]) (fun q hq => h1 q (List.mem_cons_of_mem p hq))

theorem processPages_no_abort (hs : List Heading)
    (X : Nat → Option (List RawExercise)) (ref date : String) (l : List Nat)
    (store : List ExRow) (n : Nat) (pr : List Nat)
    (h : ∀ p ∈ l, pageAbortsB hs X ref date p = false) :
    ∃ t, processPages hs X ref date l store n pr =
      ⟨store ++ t, some (n + t.length), pr ++ l⟩ := by
  induction l generalizing store n pr with
  | nil => exact ⟨[], by simp [processPages]⟩
  | cons p ps ih =>
    cases hl : extract_exercises X p with
    | nil =>
      rw [processPages_cons_empty hs X ref date p ps store n pr hl]
      obtain ⟨t, ht⟩ := ih store n (pr ++ [p])
        (fun q hq => h q (List.mem_cons_of_mem p hq))
      refine ⟨t, ?_⟩
      rw [ht]
      simp
    | cons a l2 =>
      have hne : extract_exercises X p ≠ [] := by rw [hl]; simp
      have hp := h p (List.mem_cons_self p ps)
      rw [pageAbortsB] at hp
      cases hw : enrich_with_toc hs ref p date (extract_exercises X p) with
      | error err =>
        exfalso
        rw [hw, hl] at hp
        simp at hp
      | ok rows =>
        rw [processPages_cons_save hs X ref date p ps store n pr rows hne hw]
        obtain ⟨t, ht⟩ := ih (store ++ rows) (n + rows.length) (pr ++ [p])
          (fun q hq => h q (List.mem_cons_of_mem p hq))
        refine ⟨rows ++ t, ?_⟩
        rw [ht]
        simp [Nat.add_assoc]

theorem enrichRows_error_indep (chs : List CHeading) (ref : String) (p : Nat)
    (date date2 : String) (rs : List RawExercise) (err : String)
    (h : enrichRows chs ref p date rs = Except.error err) :
    enrichRows chs ref p date2 rs = Except.error err := by
  induction rs with
  | nil => rw [enrichRows] at h; cases h
  | cons r rest ih =>
    rw [enrichRows] at h ⊢
    cases he : enrichExercise chs p (String.intercalate "," r.tags) with
    | error e =>
      simp only [he] at h ⊢
      exact h
    | ok ct =>
      obtain ⟨c, tgs⟩ := ct
      simp only [he] at h ⊢
      cases hr : enrichRows chs ref p date rest with
      | error e =>
        simp only [hr, Except.error.injEq] at h
        subst h
        simp only [ih hr]
      | ok rows2 =>
        simp only [hr] at h
        cases h

theorem enrich_with_toc_error_indep (hs : List Heading) (ref : String) (p : Nat)
    (date date2 : String) (raws : List RawExercise) (err : String)
    (h : enrich_with_toc hs ref p date raws = Except.error err) :
    enrich_with_toc hs ref p date2 raws = Except.error err := by
  rw [enrich_with_toc] at h ⊢
  cases hb : buildHeadingIndex hs with
  | error e =>
    simp only [hb] at h ⊢
    exact h
  | ok chs =>
    simp only [hb] at h ⊢
    exact enrichRows_error_indep chs ref p date date2 raws err h

/-- The shape of the pages a second run can still see: either every one
of them extracts an empty batch, or an initial segment of empty pages
is followed by a page on which the enrichment raises (anything behind
it is unreachable). -/
def Benign (hs : List Heading) (X : Nat → Option (List RawExercise))
    (ref date : String) (l : List Nat) : Prop :=
  (∀ p ∈ l, extract_exercises X p = []) ∨
  ∃ l1 k l2, l = l1 ++ k :: l2 ∧ (∀ p ∈ l1, extract_exercises X p = []) ∧
    extract_exercises X k ≠ [] ∧
    ∃ err, enrich_with_toc hs ref k date (extract_exercises X k) = Except.error err

theorem processPages_benign_rest (hs : List Heading)
    (X : Nat → Option (List RawExercise)) (ref date : String) (l : List Nat)
    (store : List ExRow) (n : Nat) (pr : List Nat)
    (hinv : ∀ p ∈ l, existsStored store ref p = true →
      extract_exercises X p ≠ [] ∧
      ∃ rows, enrich_with_toc hs ref p date (extract_exercises X p) = Except.ok rows) :
    Benign hs X ref date (l.filter
      (fun p => ! existsStored (processPages hs X ref date l store n pr).store ref p)) := by
  induction l generalizing store n pr with
  | nil => exact Or.inl (fun p hp => absurd hp (by simp))
  | cons p ps ih =>
    cases hl : extract_exercises X p with
    | nil =>
      rw [processPages_cons_empty hs X ref date p ps store n pr hl]
      have ihB := ih store n (pr ++ [p])
        (fun q hq hE => hinv q (List.mem_cons_of_mem p hq) hE)
      rw [List.filter_cons]
      by_cases hkeep :
          (! existsStored (processPages hs X ref date ps store n (pr ++ [p])).store ref p) = true
      · rw [if_pos hkeep]
        rcases ihB with hall | ⟨l1, k, l2, heq, hl1, hkne, herr⟩
        · left
          intro q hq
          rcases List.mem_cons.mp hq with h1 | h2
          · rw [h1]; exact hl
          · exact hall q h2
        · right
          refine ⟨p :: l1, k, l2, by rw [heq, List.cons_append], ?_, hkne, herr⟩
          intro q hq
          rcases List.mem_cons.mp hq with h1 | h2
          · rw [h1]; exact hl
          · exact hl1 q h2
      · rw [if_neg hkeep]
        exact ihB
    | cons a l2 =>
      have hne : extract_exercises X p ≠ [] := by rw [hl]; simp
      cases hw : enrich_with_toc hs ref p date (extract_exercises X p) with
      | error err =>
        rw [processPages_cons_abort hs X ref date p ps store n pr err hne hw]
        have hkeep : existsStored store ref p = false := by
          cases hE : existsStored store ref p with
          | false => rfl
          | true =>
            obtain ⟨_, rows, hok⟩ := hinv p (List.mem_cons_self p ps) hE
            rw [hok] at hw
            cases hw
        rw [List.filter_cons, if_pos (by rw [hkeep]; rfl)]
        right
        exact ⟨[], p, ps.filter _, by rw [List.nil_append],
          fun q hq => absurd hq (by simp), hne, err, hw⟩
      | ok rows =>
        rw [processPages_cons_save hs X ref date p ps store n pr rows hne hw]
        have hrows_ne : rows ≠ [] := by
          have hlen := enrich_with_toc_ok_length hs ref p date
            (extract_exercises X p) rows hw
          intro hr0
          rw [hr0] at hlen
          rw [hl] at hlen
          cases hlen
        have hmemr := enrich_with_toc_ok_mem hs ref p date
          (extract_exercises X p) rows hw
        have hsaved : existsStored (store ++ rows) ref p = true :=
          existsStored_of_saved store rows ref p hrows_ne hmemr
        obtain ⟨t, ht⟩ := processPages_store_append hs X ref date ps
          (store ++ rows) (n + rows.length) (pr ++ [p])
        have hstored : existsStored
            (processPages hs X ref date ps (store ++ rows) (n + rows.length)
              (pr ++ [p])).store ref p = true := by
          rw [ht]
          exact existsStored_append_left (store ++ rows) t ref p hsaved
        rw [List.filter_cons, if_neg (by rw [hstored]; simp)]
        apply ih (store ++ rows) (n + rows.length) (pr ++ [p])
        intro q hq hE
        rcases existsStored_append_elim store rows ref q hE with h1 | ⟨row, hrow, hpq⟩
        · exact hinv q (List.mem_cons_of_mem p hq) h1
        · have hqp : q = p := by rw [← hpq, (hmemr row hrow).1]
          rw [hqp]
          exact ⟨hne, rows, hw⟩

theorem processPages_store_new (hs : List Heading)
    (X : Nat → Option (List RawExercise)) (ref date : String) (l : List Nat)
    (store : List ExRow) (n : Nat) (pr : List Nat) :
    ∃ t, (processPages hs X ref date l store n pr).store = store ++ t ∧
      ∀ row ∈ t, ∃ q ∈ l, row.page = q ∧ row.reference = ref ∧
        extract_exercises X q ≠ [] := by
  induction l generalizing store n pr with
  | nil =>
    refine ⟨[], by simp [processPages], ?_⟩
    intro row h
    cases h
  | cons p ps ih =>
    cases hl : extract_exercises X p with
    | nil =>
      rw [processPages_cons_empty hs X ref date p ps store n pr hl]
      obtain ⟨t, ht, hmem⟩ := ih store n (pr ++ [p])
      refine ⟨t, ht, ?_⟩
      intro row hrow
      obtain ⟨q, hq, hrest⟩ := hmem row hrow
      exact ⟨q, List.mem_cons_of_mem p hq, hrest⟩
    | cons a l2 =>
      have hne : extract_exercises X p ≠ [] := by rw [hl]; simp
      cases hw : enrich_with_toc hs ref p date (extract_exercises X p) with
      | error err =>
        rw [processPages_cons_abort hs X ref date p ps store n pr err hne hw]
        refine ⟨[], by simp, ?_⟩
        intro row h
        cases h
      | ok rows =>
        rw [processPages_cons_save hs X ref date p ps store n pr rows hne hw]
        obtain ⟨t, ht, hmem⟩ := ih (store ++ rows) (n + rows.length) (pr ++ [p])
        refine ⟨rows ++ t, by rw [ht, List.append_assoc], ?_⟩
        intro row hrow
        rcases List.mem_append.mp hrow with h1 | h2
        · obtain ⟨hp, hr⟩ := enrich_with_toc_ok_mem hs ref p date
            (extract_exercises X p) rows hw row h1
          exact ⟨p, List.mem_cons_self p ps, hp, hr, hne⟩
        · obtain ⟨q, hq, hrest⟩ := hmem row h2
          exact ⟨q, List.mem_cons_of_mem p hq, hrest⟩

/-- Claim C2 (confirmed): running ingest twice on the same document,
with the extractor, heading index and store unchanged between the
runs, leaves the store exactly as after the first run — the second run
stores 0 new exercises, so the total stored-exercise count after the
second run equals the count after the first. -/
theorem C2_idempotent_ingest (numPages : Nat) (mlines : List (Nat × String))
    (hs : List Heading) (X : Nat → Option (List RawExercise))
    (ref date date2 : String) (store : List ExRow) :
    (process_document numPages mlines hs X ref date2
        (process_document numPages mlines hs X ref date store).store).store =
      (process_document numPages mlines hs X ref date store).store := by
  by_cases hpg : (selectPages numPages mlines).isEmpty = true
  · have hrun1 : process_document numPages mlines hs X ref date store
        = ⟨store, none, []⟩ := by
      unfold process_document
      rw [if_pos hpg]
    have hrun2 : process_document numPages mlines hs X ref date2 store
        = ⟨store, none, []⟩ := by
      unfold process_document
      rw [if_pos hpg]
    rw [hrun1]
    show (process_document numPages mlines hs X ref date2 store).store = store
    rw [hrun2]
  · set T1 := (selectPages numPages mlines).filter
      (fun p => ! existsStored store ref p) with hT1
    by_cases ht1 : T1.isEmpty = true
    · have hrun1 : process_document numPages mlines hs X ref date store
          = ⟨store, none, []⟩ := by
        unfold process_document
        rw [← hT1, if_neg hpg, if_pos ht1]
      have hrun2 : process_document numPages mlines hs X ref date2 store
          = ⟨store, none, []⟩ := by
        unfold process_document
        rw [← hT1, if_neg hpg, if_pos ht1]
      rw [hrun1]
      show (process_document numPages mlines hs X ref date2 store).store = store
      rw [hrun2]
    · have hrun1 : process_document numPages mlines hs X ref date store
          = processPages hs X ref date T1 store 0 [] := by
        unfold process_document
        rw [← hT1, if_neg hpg, if_neg ht1]
      rw [hrun1]
      obtain ⟨t, htap⟩ := processPages_store_append hs X ref date T1 store 0 []
      have hmono : ∀ p, existsStored store ref p = true →
          existsStored (processPages hs X ref date T1 store 0 []).store ref p
            = true := by
        intro p hp
        rw [htap]
        exact existsStored_append_left store t ref p hp
      have hinv : ∀ p ∈ T1, existsStored store ref p = true →
          extract_exercises X p ≠ [] ∧
          ∃ rows, enrich_with_toc hs ref p date (extract_exercises X p)
            = Except.ok rows := by
        intro p hp hE
        exfalso
        rw [hT1] at hp
        have hcond := (List.mem_filter.mp hp).2
        rw [hE] at hcond
        cases hcond
      have hben := processPages_benign_rest hs X ref date T1 store 0 [] hinv
      have htodo2 : (selectPages numPages mlines).filter
          (fun p => ! existsStored
            (processPages hs X ref date T1 store 0 []).store ref p)
          = T1.filter (fun p => ! existsStored
            (processPages hs X ref date T1 store 0 []).store ref p) := by
        conv_rhs => rw [hT1]
        rw [List.filter_filter]
        apply List.filter_congr
        intro p _
        cases hE : existsStored store ref p with
        | false => simp [hE]
        | true => simp [hE, hmono p hE]
      unfold process_document
      rw [if_neg hpg]
      by_cases ht2 : ((selectPages numPages mlines).filter
          (fun p => ! existsStored
            (processPages hs X ref date T1 store 0 []).store ref p)).isEmpty = true
      · rw [if_pos ht2]
      · rw [if_neg ht2, htodo2]
        rcases hben with hall | ⟨l1, k, l2, heq, hl1, hkne, err, herr⟩
        · rw [processPages_all_empty hs X ref date2 _ _ 0 [] hall]
        · rw [heq]
          exact (processPages_abort_run hs X ref date2 l1 k l2 _ 0 [] err hl1 hkne
            (enrich_with_toc_error_indep hs ref k date date2 _ err herr)).1

/-- Claim C3 counterexample: a page whose extraction parsed but
returned zero exercises (here page 1, extractor returns `some []`)
stores no row, so a second ingest run invokes the extractor on it
again — both runs have processed-page list `[1]`, refuting "a page
already processed in an earlier run is never reprocessed, even if the
original extraction returned zero exercises". -/
theorem C3_counterexample :
    (process_document 1 [(1, "m")] [⟨"Ch1", 1, 0⟩] (fun _ => some [])
        "doc" "d" []).processed = [1] ∧
    (process_document 1 [(1, "m")] [⟨"Ch1", 1, 0⟩] (fun _ => some [])
        "doc" "d2"
        (process_document 1 [(1, "m")] [⟨"Ch1", 1, 0⟩] (fun _ => some [])
          "doc" "d" []).store).processed = [1] := by
  exact ⟨rfl, rfl⟩

/-- Claim C3 amended: a page that already has at least one stored
exercise row for a LIKE-matching reference is never reprocessed by a
later ingest run; a page whose earlier extraction stored nothing
(including a zero-exercise extraction) remains in the candidate set
and is processed again. -/
theorem C3_amended (numPages : Nat) (mlines : List (Nat × String))
    (hs : List Heading) (X : Nat → Option (List RawExercise))
    (ref date : String) (store : List ExRow) (p : Nat)
    (h : existsStored store ref p = true) :
    p ∉ (process_document numPages mlines hs X ref date store).processed := by
  intro hmem
  unfold process_document at hmem
  by_cases hpg : (selectPages numPages mlines).isEmpty = true
  · rw [if_pos hpg] at hmem
    cases hmem
  · rw [if_neg hpg] at hmem
    by_cases ht : ((selectPages numPages mlines).filter
        (fun q => ! existsStored store ref q)).isEmpty = true
    · rw [if_pos ht] at hmem
      cases hmem
    · rw [if_neg ht] at hmem
      rcases processPages_processed_sub hs X ref date _ store 0 [] p hmem with h1 | h2
      · cases h1
      · have hcond := (List.mem_filter.mp h2).2
        rw [h] at hcond
        cases hcond

theorem C3_amended_witness :
    existsStored [⟨"doc", none, 1, 1, "t", false, "", "d"⟩] "doc" 1 = true ∧
    1 ∉ (process_document 1 [(1, "m")] [] (fun _ => some []) "doc" "d"
        [⟨"doc", none, 1, 1, "t", false, "", "d"⟩]).processed :=
  ⟨by decide, C3_amended 1 [(1, "m")] [] (fun _ => some []) "doc" "d"
      [⟨"doc", none, 1, 1, "t", false, "", "d"⟩] 1 (by decide)⟩

/-- Claim C8 counterexample: with candidate page 1 already stored, the
run completes ("No new exercises to extract!") having stored 0 new
exercises, but `process_document` returns Python `None` (`count =
none`), not the stored-exercise count 0 — refuting "ingest returns the
total count of exercises stored in that run" for this completed run. -/
theorem C8_counterexample :
    (process_document 1 [(1, "m")] [] (fun _ => some []) "doc" "d"
        [⟨"doc", none, 1, 1, "t", false, "", "d"⟩]).count = none ∧
    (process_document 1 [(1, "m")] [] (fun _ => some []) "doc" "d"
        [⟨"doc", none, 1, 1, "t", false, "", "d"⟩]).store =
      [⟨"doc", none, 1, 1, "t", false, "", "d"⟩] := by
  exact ⟨rfl, rfl⟩

/-- Claim C8 amended: when at least one candidate page survives the
already-ingested filter and no surviving page raises inside the
enrichment, ingest returns exactly the number of exercises stored in
this run (`some k` with `k` the number of new rows; `some 0` — all
pages extracting empty — is a valid, non-error outcome); when no page
survives, the run returns no count (`None`) while storing nothing. -/
theorem C8_amended (numPages : Nat) (mlines : List (Nat × String))
    (hs : List Heading) (X : Nat → Option (List RawExercise))
    (ref date : String) (store : List ExRow)
    (hne : (((selectPages numPages mlines).filter
      (fun p => ! existsStored store ref p)).isEmpty = false))
    (hab : ∀ p ∈ (selectPages numPages mlines).filter
      (fun p => ! existsStored store ref p),
      pageAbortsB hs X ref date p = false) :
    ∃ k, (process_document numPages mlines hs X ref date store).count = some k ∧
      (process_document numPages mlines hs X ref date store).store.length
        = store.length + k := by
  have hpg : ¬ (selectPages numPages mlines).isEmpty = true := by
    intro hemp
    cases hsel : selectPages numPages mlines with
    | nil =>
      rw [hsel] at hne
      cases hne
    | cons a l =>
      rw [hsel] at hemp
      cases hemp
  have hne2 : ¬ ((selectPages numPages mlines).filter
      (fun p => ! existsStored store ref p)).isEmpty = true := by
    rw [hne]
    exact Bool.false_ne_true
  unfold process_document
  rw [if_neg hpg, if_neg hne2]
  obtain ⟨t, ht⟩ := processPages_no_abort hs X ref date _ store 0 [] hab
  rw [ht]
  exact ⟨t.length, by simp, by simp⟩

theorem C8_amended_witness :
    ((selectPages 1 []).filter (fun p => ! existsStored [] "doc" p)).isEmpty
        = false ∧
    (∀ p ∈ (selectPages 1 []).filter (fun p => ! existsStored [] "doc" p),
      pageAbortsB [] (fun _ => some []) "doc" "d" p = false) ∧
    ∃ k, (process_document 1 [] [] (fun _ => some []) "doc" "d" []).count
        = some k ∧
      (process_document 1 [] [] (fun _ => some []) "doc" "d" []).store.length
        = ([] : List ExRow).length + k :=
  ⟨by decide, by decide,
    C8_amended 1 [] [] (fun _ => some []) "doc" "d" [] (by decide) (by decide)⟩

/-- Claim C5 (confirmed): a page whose AI extraction response fails to
parse (`X p = none`) is treated as an empty batch: the per-page loop
skips it and continues identically with the remaining pages; the run
adds no row for that page to the store; and since nothing was stored
for it, the page is still in the not-yet-ingested candidate set of a
later run. -/
theorem C5_page_parse_failure (numPages : Nat) (mlines : List (Nat × String))
    (hs : List Heading) (X : Nat → Option (List RawExercise))
    (ref date : String) (store : List ExRow) (p : Nat) (rest : List Nat)
    (s : List ExRow) (n : Nat) (pr : List Nat)
    (hX : X p = none)
    (hcand : p ∈ selectPages numPages mlines)
    (hnew : existsStored store ref p = false) :
    processPages hs X ref date (p :: rest) s n pr
        = processPages hs X ref date rest s n (pr ++ [p]) ∧
    (process_document numPages mlines hs X ref date store).store.filter
        (fun row => row.page == p)
      = store.filter (fun row => row.page == p) ∧
    p ∈ (selectPages numPages mlines).filter
        (fun q => ! existsStored
          (process_document numPages mlines hs X ref date store).store ref q) := by
  have hXe : extract_exercises X p = [] := by
    rw [extract_exercises, hX]
    rfl
  have hpg : ¬ (selectPages numPages mlines).isEmpty = true := by
    intro hemp
    cases hsel : selectPages numPages mlines with
    | nil =>
      rw [hsel] at hcand
      cases hcand
    | cons a l =>
      rw [hsel] at hemp
      cases hemp
  have hptodo : p ∈ (selectPages numPages mlines).filter
      (fun q => ! existsStored store ref q) :=
    List.mem_filter.mpr ⟨hcand, by rw [hnew]; rfl⟩
  have ht : ¬ ((selectPages numPages mlines).filter
      (fun q => ! existsStored store ref q)).isEmpty = true := by
    intro hemp
    cases hsel : (selectPages numPages mlines).filter
        (fun q => ! existsStored store ref q) with
    | nil =>
      rw [hsel] at hptodo
      cases hptodo
    | cons a l =>
      rw [hsel] at hemp
      cases hemp
  have hrun : process_document numPages mlines hs X ref date store
      = processPages hs X ref date
        ((selectPages numPages mlines).filter
          (fun q => ! existsStored store ref q)) store 0 [] := by
    unfold process_document
    rw [if_neg hpg, if_neg ht]
  obtain ⟨t, htap, htmem⟩ := processPages_store_new hs X ref date
    ((selectPages numPages mlines).filter
      (fun q => ! existsStored store ref q)) store 0 []
  have htnop : ∀ row ∈ t, ¬ row.page = p := by
    intro row hrow hpp
    obtain ⟨q, _, hq, _, hqne⟩ := htmem row hrow
    rw [hpp] at hq
    rw [← hq] at hqne
    exact hqne hXe
  refine ⟨processPages_cons_empty hs X ref date p rest s n pr hXe, ?_, ?_⟩
  · rw [hrun, htap, List.filter_append]
    have hnil : t.filter (fun row => row.page == p) = [] := by
      apply List.filter_eq_nil_iff.mpr
      intro row hrow
      simp only [beq_iff_eq]
      exact htnop row hrow
    rw [hnil, List.append_nil]
  · apply List.mem_filter.mpr
    refine ⟨hcand, ?_⟩
    rw [hrun, htap]
    cases hE : existsStored (store ++ t) ref p with
    | false => rfl
    | true =>
      exfalso
      rcases existsStored_append_elim store t ref p hE with h1 | ⟨row, hrow, hpp⟩
      · rw [h1] at hnew
        cases hnew
      · exact htnop row hrow hpp

theorem C5_page_parse_failure_witness :
    ((fun q => if q = 2 then none else
        some [⟨(7 : Int), "txt", false, ["a"]⟩]) : Nat → Option (List RawExercise)) 2
      = none ∧
    2 ∈ selectPages 3 [] ∧
    existsStored [] "doc" 2 = false ∧
    (processPages [⟨"Ch1", 1, 0⟩] (fun q => if q = 2 then none else
          some [⟨(7 : Int), "txt", false, ["a"]⟩]) "doc" "d" [2, 3] [] 0 []
        = processPages [⟨"Ch1", 1, 0⟩] (fun q => if q = 2 then none else
          some [⟨(7 : Int), "txt", false, ["a"]⟩]) "doc" "d" [3] [] 0 [2]) ∧
    ((process_document 3 [] [⟨"Ch1", 1, 0⟩] (fun q => if q = 2 then none else
          some [⟨(7 : Int), "txt", false, ["a"]⟩]) "doc" "d" []).store.filter
        (fun row => row.page == 2)
      = ([] : List ExRow).filter (fun row => row.page == 2)) ∧
    2 ∈ (selectPages 3 []).filter
        (fun q => ! existsStored
          (process_document 3 [] [⟨"Ch1", 1, 0⟩] (fun q => if q = 2 then none else
            some [⟨(7 : Int), "txt", false, ["a"]⟩]) "doc" "d" []).store "doc" q) := by
  have h := C5_page_parse_failure 3 [] [⟨"Ch1", 1, 0⟩]
    (fun q => if q = 2 then none else some [⟨(7 : Int), "txt", false, ["a"]⟩])
    "doc" "d" [] 2 [3] [] 0 [] (by decide) (by decide) (by decide)
  exact ⟨by decide, by decide, by decide, h.1, h.2.1, h.2.2⟩

/-- Claim C4 (confirmed): a grading request whose AI response does not
parse as the expected JSON object raises out of `extract_solution`
(the error surfaces to the caller, whose handler displays it and
returns no verdict), and the attempts `INSERT` — which only runs after
a successful parse — is never reached: the attempts store is returned
unchanged. -/
theorem C4_grading_failure_no_attempt (ref : String) (page : Nat) (number : Int)
    (date : String) (attempts : List AttemptRow) :
    extract_solution none = Except.error "JSONDecodeError" ∧
    solutions_page_submit none ref page number date attempts
      = (attempts, none) :=
  ⟨rfl, rfl⟩

theorem foldl_max_le_init (l : List Nat) (a : Nat) : a ≤ l.foldl max a := by
  induction l generalizing a with
  | nil => exact Nat.le_refl a
  | cons y l ih => exact Nat.le_trans (Nat.le_max_left a y) (ih (max a y))

theorem le_foldl_max_of_mem (l : List Nat) (a x : Nat) (hx : x ∈ l) :
    x ≤ l.foldl max a := by
  induction l generalizing a with
  | nil => cases hx
  | cons y l ih =>
    rw [List.foldl_cons]
    rcases List.mem_cons.mp hx with h1 | h2
    · rw [h1]
      exact Nat.le_trans (Nat.le_max_right a y) (foldl_max_le_init l (max a y))
    · exact ih (max a y) h2

theorem find?_eq_some_split {α : Type} (f : α → Bool) (l : List α) (a : α)
    (h : l.find? f = some a) :
    ∃ l1 l2, l = l1 ++ a :: l2 ∧ (∀ x ∈ l1, f x = false) ∧ f a = true := by
  induction l with
  | nil => cases h
  | cons b l ih =>
    cases hfb : f b with
    | true =>
      rw [List.find?_cons_of_pos l hfb] at h
      cases h
      exact ⟨[], l, rfl, fun x hx => absurd hx (by simp), hfb⟩
    | false =>
      rw [List.find?_cons_of_neg l (by simp [hfb])] at h
      obtain ⟨l1, l2, heq, hl1, hfa⟩ := ih h
      refine ⟨b :: l1, l2, by rw [heq, List.cons_append], ?_, hfa⟩
      intro x hx
      rcases List.mem_cons.mp hx with h1 | h2
      · exact h1 ▸ hfb
      · exact hl1 x h2

/-- Claim C1 (code bug): when no heading page anchor strictly precedes
an exercise's page — here an exercise on page 1 with a heading at page
1, and also the empty Heading Index — `enrich_with_toc` raises
(pandas `idxmax` on an empty selection, resp. `sort_values` on a
missing column) instead of leaving the chapter empty with no appended
tags. -/
theorem C1_no_preceding_heading_raises :
    enrich_with_toc [⟨"Ch1", 1, 0⟩] "r" 1 "d" [⟨(1 : Int), "t", false, ["x"]⟩]
        = Except.error "ValueError" ∧
    enrich_with_toc [] "r" 3 "d" [⟨(1 : Int), "t", false, ["x"]⟩]
        = Except.error "KeyError" :=
  ⟨rfl, rfl⟩

/-- Claim C6 counterexample: two level-0 headings anchored on the same
page 1 and an exercise on page 2.  The code (pandas `idxmax`) picks the
FIRST heading attaining the maximal page below 2 and assigns chapter
"A", while the claim's rule — the LAST such heading in the sorted
sequence — names the heading with chapter "B". -/
theorem C6_counterexample :
    buildHeadingIndex [⟨"A", 1, 0⟩, ⟨"B", 1, 0⟩]
        = Except.ok [⟨"A", 1, 0, some "A"⟩, ⟨"B", 1, 0, some "B"⟩] ∧
    enrichExercise [⟨"A", 1, 0, some "A"⟩, ⟨"B", 1, 0, some "B"⟩] 2 "t"
        = Except.ok (some "A", "t,A") ∧
    claimLastMaxSection [⟨"A", 1, 0, some "A"⟩, ⟨"B", 1, 0, some "B"⟩] 2
        = some ⟨"B", 1, 0, some "B"⟩ ∧
    (some "A" : Option String) ≠ some "B" :=
  ⟨rfl, rfl, rfl, by decide⟩

/-- Claim C6 amended: for an exercise at page P over a heading index
containing at least one heading with page anchor strictly below P, the
assigned chapter is the chapter field of the heading with the greatest
page strictly below P; when several headings share that greatest page,
the FIRST such heading in the sorted sequence wins (pandas `idxmax`
returns the first maximising row). -/
theorem C6_amended (hs : List Heading) (P : Nat) (tags : String)
    (chs : List CHeading) (c : Option String) (ts : String)
    (hidx : buildHeadingIndex hs = Except.ok chs)
    (hok : enrichExercise chs P tags = Except.ok (c, ts)) :
    ∃ l1 h l2, chs.filter (fun x => x.page < P) = l1 ++ h :: l2 ∧
      c = h.chapter ∧
      (∀ x ∈ l1, x.page < h.page) ∧
      (∀ x ∈ l2, x.page ≤ h.page) := by
  rw [enrichExercise] at hok
  cases hcs : chooseSection chs P with
  | none =>
    rw [hcs] at hok
    cases hok
  | some sec =>
    rw [hcs] at hok
    simp only [Except.ok.injEq, Prod.mk.injEq] at hok
    have hc : c = sec.chapter := hok.1.symm
    rw [chooseSection] at hcs
    obtain ⟨l1, l2, heq, hl1, hsec⟩ := find?_eq_some_split _ _ _ hcs
    have hM : sec.page = maxPageOf (chs.filter (fun x => x.page < P)) := by
      simpa using hsec
    have hub : ∀ x ∈ chs.filter (fun x => x.page < P), x.page ≤ sec.page := by
      intro x hx
      rw [hM, maxPageOf]
      exact le_foldl_max_of_mem _ 0 x.page
        (List.mem_map_of_mem (fun h => h.page) hx)
    refine ⟨l1, sec, l2, heq, hc, ?_, ?_⟩
    · intro x hx
      have hxc : x ∈ chs.filter (fun x => x.page < P) := by
        rw [heq]
        exact List.mem_append_left _ hx
      have hne : ¬ x.page = maxPageOf (chs.filter (fun x => x.page < P)) := by
        have := hl1 x hx
        simpa using this
      rw [← hM] at hne
      exact Nat.lt_of_le_of_ne (hub x hxc) hne
    · intro x hx
      have hxc : x ∈ chs.filter (fun x => x.page < P) := by
        rw [heq]
        exact List.mem_append_right _ (List.mem_cons_of_mem sec hx)
      exact hub x hxc

theorem C6_amended_witness :
    ∃ l1 h l2,
      ([⟨"Ch1", 1, 0, some "Ch1"⟩, ⟨"1.2", 5, 1, some "Ch1"⟩,
          ⟨"Ch2", 10, 0, some "Ch2"⟩] : List CHeading).filter
        (fun x => x.page < 7) = l1 ++ h :: l2 ∧
      (some "Ch1" : Option String) = h.chapter ∧
      (∀ x ∈ l1, x.page < h.page) ∧
      (∀ x ∈ l2, x.page ≤ h.page) :=
  C6_amended [⟨"Ch1", 1, 0⟩, ⟨"1.2", 5, 1⟩, ⟨"Ch2", 10, 0⟩] 7 "a,b"
    [⟨"Ch1", 1, 0, some "Ch1"⟩, ⟨"1.2", 5, 1, some "Ch1"⟩,
      ⟨"Ch2", 10, 0, some "Ch2"⟩]
    (some "Ch1") "a,b,Ch1,1.2" rfl rfl

/-- Claim C9 (confirmed): when the enricher assigns a chapter `C` to
an exercise, the enriched tag string equals the AI-proposed tags (in
place, first) followed by a comma and the comma-joined titles of every
heading whose chapter equals `C`, in sorted heading order. -/
theorem C9_tag_augmentation (hs : List Heading) (P : Nat) (tags : String)
    (chs : List CHeading) (c : String) (ts : String)
    (hidx : buildHeadingIndex hs = Except.ok chs)
    (hok : enrichExercise chs P tags = Except.ok (some c, ts)) :
    ts = tags ++ "," ++ String.intercalate ","
      ((chs.filter (fun h => h.chapter == some c)).map (fun h => h.title)) := by
  rw [enrichExercise] at hok
  cases hcs : chooseSection chs P with
  | none =>
    rw [hcs] at hok
    cases hok
  | some sec =>
    rw [hcs] at hok
    simp only [Except.ok.injEq, Prod.mk.injEq] at hok
    obtain ⟨hc, hts⟩ := hok
    rw [← hts, hc, chapterTitles]
    have hfe : (chs.filter (fun h =>
        match (some c : Option String), h.chapter with
        | some a, some b => a == b
        | _, _ => false))
        = chs.filter (fun h => h.chapter == some c) := by
      apply List.filter_congr
      intro h _
      cases hch : h.chapter with
      | none => rfl
      | some b =>
        show (c == b) = (b == c)
        by_cases hcb : c = b
        · rw [hcb]
        · rw [beq_eq_false_iff_ne.mpr hcb, beq_eq_false_iff_ne.mpr (Ne.symm hcb)]
    rw [hfe]

theorem C9_tag_augmentation_witness :
    ("a,b,Ch1,1.2" : String) = "a,b" ++ "," ++ String.intercalate ","
      ((([⟨"Ch1", 1, 0, some "Ch1"⟩, ⟨"1.2", 5, 1, some "Ch1"⟩,
          ⟨"Ch2", 10, 0, some "Ch2"⟩] : List CHeading).filter
        (fun h => h.chapter == some "Ch1")).map (fun h => h.title)) :=
  C9_tag_augmentation [⟨"Ch1", 1, 0⟩, ⟨"1.2", 5, 1⟩, ⟨"Ch2", 10, 0⟩] 7 "a,b"
    [⟨"Ch1", 1, 0, some "Ch1"⟩, ⟨"1.2", 5, 1, some "Ch1"⟩,
      ⟨"Ch2", 10, 0, some "Ch2"⟩]
    "Ch1" "a,b,Ch1,1.2" rfl rfl

/-- Claim C7 counterexample: a page bearing two marker match lines
(page 5 matched twice) appears twice in the selector's output — the
returned sequence `[5, 5]` is not deduplicated. -/
theorem C7_counterexample :
    selectPages 10 [(5, "a"), (5, "b")] = [5, 5] ∧
    ¬ (selectPages 10 [(5, "a"), (5, "b")]).Nodup := by
  exact ⟨rfl, by decide⟩

/-- Claim C7 amended: given pdfgrep match lines in scan order (page
numbers ascending, 1-based), the Page Selector returns one page number
per match line — ascending and 1-based, but with a page repeated once
per match, not deduplicated — and the full ascending range
`1..numPages` when no match line exists (all-or-nothing fallback). -/
theorem C7_amended (numPages : Nat) (mlines : List (Nat × String))
    (hsort : (mlines.map (fun m => m.1)).Sorted (· ≤ ·))
    (hpos : ∀ q ∈ mlines.map (fun m => m.1), 1 ≤ q) :
    (mlines = [] → selectPages numPages mlines
        = (List.range numPages).map (fun i => i + 1)) ∧
    (mlines ≠ [] → selectPages numPages mlines = mlines.map (fun m => m.1)) ∧
    (selectPages numPages mlines).Sorted (· ≤ ·) ∧
    ∀ q ∈ selectPages numPages mlines, 1 ≤ q := by
  cases mlines with
  | nil =>
    have hsel : selectPages numPages [] = (List.range numPages).map (fun i => i + 1) := rfl
    refine ⟨fun _ => hsel, fun hne => absurd rfl hne, ?_, ?_⟩
    · rw [hsel]
      exact List.Pairwise.map (fun i => i + 1)
        (fun a b hab => Nat.le_of_lt (Nat.succ_lt_succ hab))
        (List.pairwise_lt_range numPages)
    · intro q hq
      rw [hsel] at hq
      obtain ⟨i, _, hi⟩ := List.mem_map.mp hq
      rw [← hi]
      exact Nat.succ_le_succ (Nat.zero_le i)
  | cons m ms =>
    have hsel : selectPages numPages (m :: ms) = (m :: ms).map (fun x => x.1) := rfl
    refine ⟨?_, fun _ => hsel, ?_, ?_⟩
    · intro habs
      cases habs
    · rw [hsel]
      exact hsort
    · intro q hq
      rw [hsel] at hq
      exact hpos q hq

theorem C7_amended_witness :
    ((([(1, "a"), (3, "b")] : List (Nat × String)).map (fun m => m.1)).Sorted (· ≤ ·)) ∧
    (∀ q ∈ ([(1, "a"), (3, "b")] : List (Nat × String)).map (fun m => m.1), 1 ≤ q) ∧
    (([(1, "a"), (3, "b")] : List (Nat × String)) ≠ [] →
      selectPages 5 [(1, "a"), (3, "b")]
        = ([(1, "a"), (3, "b")] : List (Nat × String)).map (fun m => m.1)) ∧
    (selectPages 5 [(1, "a"), (3, "b")]).Sorted (· ≤ ·) ∧
    ∀ q ∈ selectPages 5 [(1, "a"), (3, "b")], 1 ≤ q := by
  have h := C7_amended 5 [(1, "a"), (3, "b")] (by decide) (by decide)
  exact ⟨by decide, by decide, h.2.1, h.2.2.1, h.2.2.2⟩

/-- Claim C10 (confirmed): the exercise query with attempt-status
filter "incorrect" keeps exactly the exercises having at least one
joined attempt and no correct attempt, because `HAVING
MAX(a.is_solution_correct) = 0` requires a non-NULL aggregate equal to
0 — an exercise with both a correct and an incorrect attempt has
aggregate 1 and is excluded. -/
theorem C10_incorrect_filter (exercises : List ExRow)
    (attempts : List AttemptRow) (e : ExRow) :
    e ∈ get_exercises_incorrect exercises attempts ↔
      e ∈ exercises ∧ joinedAttempts attempts e ≠ [] ∧
        ∀ a ∈ joinedAttempts attempts e, a.is_solution_correct = false := by
  rw [get_exercises_incorrect, List.mem_filter]
  have hiff : (is_solved_agg attempts e == some false) = true ↔
      (joinedAttempts attempts e ≠ [] ∧
        ∀ a ∈ joinedAttempts attempts e, a.is_solution_correct = false) := by
    rw [is_solved_agg]
    cases hj : joinedAttempts attempts e with
    | nil => simp
    | cons a l =>
      simp only [ne_eq, reduceCtorEq, not_false_iff, true_and, beq_iff_eq,
        Option.some.injEq]
      rw [List.any_eq_false]
      constructor
      · intro h x hx
        have := h x hx
        exact Bool.not_eq_true _ ▸ eq_false_of_ne_true this
      · intro h x hx
        rw [h x hx]
        exact Bool.false_ne_true
  rw [hiff]

end PS
